import Mathlib

/-!
Verification of the decision-and-learning engine of the `dqlearning-tetris`
repository against its natural-language specification.

The Python source is shallowly embedded: the 20×10 board is a list of rows of
booleans (`true` = filled cell), pieces mirror the `Piece` class of
`tetris.py`, and the placement enumerator `generate_possible_actions`, the
feature extractors (`compute_holes`, `get_wells`), the replay buffers and the
epoch bookkeeping of the agents are translated function by function.
Python floats are modelled by rationals (`ℚ`), `float('inf')` by the `inf`
constructor of `Priority`, and fallible operations (tuple indexing) by
`Except`.
-/

namespace DQLTetris

/-! ## Board model (`tetris.py`)

A grid is the inner codification of the playzone produced by `create_grid`:
20 rows of 10 cells, `true` for a locked (filled) cell and `false` for the
background colour. -/

abbrev Grid := List (List Bool)

/-- Cell lookup `grid[y][x]`; `true` iff the cell is filled.  Out-of-range
lookups return `false` (all uses below are guarded by the same bounds the
Python code guarantees). -/
def gridCell (g : Grid) (x y : Nat) : Bool :=
  (g.getD y []).getD x false

/-! ## Tetromino shapes (`tetris.py`, global variables `S` … `T`)

Each rotation state is the list of `(j, i)` positions of the `'0'` characters
in the 5×5 ASCII codification, in row-major scan order — exactly what the
loop in `generate_shape_positions` traverses. -/

def S_tet : List (List (Nat × Nat)) :=
  [[(2, 2), (3, 2), (1, 3), (2, 3)],
   [(2, 1), (2, 2), (3, 2), (3, 3)]]

def Z_tet : List (List (Nat × Nat)) :=
  [[(1, 2), (2, 2), (2, 3), (3, 3)],
   [(2, 1), (1, 2), (2, 2), (1, 3)]]

def I_tet : List (List (Nat × Nat)) :=
  [[(2, 0), (2, 1), (2, 2), (2, 3)],
   [(0, 2), (1, 2), (2, 2), (3, 2)]]

def O_tet : List (List (Nat × Nat)) :=
  [[(1, 2), (2, 2), (1, 3), (2, 3)]]

def J_tet : List (List (Nat × Nat)) :=
  [[(1, 1), (1, 2), (2, 2), (3, 2)],
   [(2, 1), (3, 1), (2, 2), (2, 3)],
   [(1, 2), (2, 2), (3, 2), (3, 3)],
   [(2, 1), (2, 2), (1, 3), (2, 3)]]

def L_tet : List (List (Nat × Nat)) :=
  [[(3, 1), (1, 2), (2, 2), (3, 2)],
   [(2, 1), (2, 2), (2, 3), (3, 3)],
   [(1, 2), (2, 2), (3, 2), (1, 3)],
   [(1, 1), (2, 1), (2, 2), (2, 3)]]

def T_tet : List (List (Nat × Nat)) :=
  [[(2, 1), (1, 2), (2, 2), (3, 2)],
   [(2, 1), (2, 2), (3, 2), (2, 3)],
   [(1, 2), (2, 2), (3, 2), (2, 3)],
   [(2, 1), (1, 2), (2, 2), (2, 3)]]

/-- `shapes = [S, Z, I, O, J, L, T]`. -/
def shapes : List (List (List (Nat × Nat))) :=
  [S_tet, Z_tet, I_tet, O_tet, J_tet, L_tet, T_tet]

/-- The `Piece` class: position of the reference point, shape codification and
rotation counter (the counter is used modulo the number of rotation states). -/
structure Piece where
  x : Int
  y : Int
  shape : List (List (Nat × Nat))
  rotation : Nat
deriving DecidableEq

/-- `get_shape`: a freshly spawned piece is `Piece(5, 0, shape)` with
rotation `0`. -/
def get_shape_piece (shape : List (List (Nat × Nat))) : Piece :=
  { x := 5, y := 0, shape := shape, rotation := 0 }

/-- `generate_shape_positions`: the `(x + j - 2, y + i - 4)` coordinates of
the blocks of the shape, using rotation state `rotation % len(shape)`. -/
def generate_shape_positions (p : Piece) : List (Int × Int) :=
  (p.shape.getD (p.rotation % p.shape.length) []).map
    (fun ji => (p.x + (ji.1 : Int) - 2, p.y + (ji.2 : Int) - 4))

/-- The `accepted_pos` list built inside `valid_space`: every background
cell of the 20 visible rows, followed by every cell of the four hidden rows
`-4 … -1`. -/
def accepted_pos (g : Grid) : List (Int × Int) :=
  ((List.range 20).flatMap (fun i =>
    ((List.range 10).filter (fun j => gridCell g j i = false)).map
      (fun j => ((j : Int), (i : Int)))))
  ++ (([-4, -3, -2, -1] : List Int).flatMap (fun i =>
    (List.range 10).map (fun j => ((j : Int), i))))

/-- `valid_space`: every block of the shape must be an accepted position. -/
def valid_space (p : Piece) (g : Grid) : Bool :=
  (generate_shape_positions p).all (fun pos => decide (pos ∈ accepted_pos g))

/-! ## Placement enumeration (`generate_possible_actions`)

The body of the double loop simulates moving the piece to rotation `rot` and
column `x`: every single rotation or horizontal step also lowers the piece one
row, and is validity-checked; the `legal_move` flag accumulates the checks. -/

/-- One simulated rotation input: `rotation += 1; y += 1`. -/
def rotStep (p : Piece) : Piece :=
  { p with rotation := p.rotation + 1, y := p.y + 1 }

/-- One simulated move to the right: `x += 1; y += 1`. -/
def rightStep (p : Piece) : Piece :=
  { p with x := p.x + 1, y := p.y + 1 }

/-- One simulated move to the left: `x -= 1; y += 1`. -/
def leftStep (p : Piece) : Piece :=
  { p with x := p.x - 1, y := p.y + 1 }

/-- A run of `n` identical simulated inputs, validity-checking the piece after
each step and conjoining the result onto the `legal_move` flag, exactly as the
Python loops do (an illegal intermediate position marks the flag but the loop
keeps running). -/
def applySteps (g : Grid) (step : Piece → Piece) : Nat → Piece → Bool → Piece × Bool
  | 0, p, legal => (p, legal)
  | n + 1, p, legal =>
      applySteps g step n (step p) (legal && valid_space (step p) g)

/-- The simulation of one `(rot, x)` candidate: `rot` rotation inputs, then
`|x_difference|` horizontal inputs toward column `x`; returns the piece after
all inputs together with the `legal_move` flag. -/
def candidate (g : Grid) (p : Piece) (rot xN : Nat) : Piece × Bool :=
  let pr := applySteps g rotStep rot p true
  let dx := pr.1.x - (xN : Int)
  if dx < 0 then applySteps g rightStep dx.natAbs pr.1 pr.2
  else if dx > 0 then applySteps g leftStep dx.natAbs pr.1 pr.2
  else pr

/-- The `while valid_space: y += 1` loop, run with enough fuel: the loop in
the source always stops because a piece with `y ≥ 24` has a block below row
19, so `(24 - y).toNat + 1` iterations are never exhausted. -/
def dropLoop (g : Grid) : Nat → Piece → Piece
  | 0, p => p
  | fuel + 1, p =>
      if valid_space p g then dropLoop g fuel { p with y := p.y + 1 } else p

/-- Drop phase of the simulation: move down while valid, then one row back up. -/
def dropFinal (g : Grid) (p : Piece) : Piece :=
  let pd := dropLoop g ((24 - p.y).toNat + 1) p
  { pd with y := pd.y - 1 }

/-- Every accepted position lies in rows `-4 … 19`. -/
theorem accepted_pos_y_le (g : Grid) (x y : Int)
    (h : (x, y) ∈ accepted_pos g) : y ≤ 19 := by
  rw [accepted_pos, List.mem_append] at h
  rcases h with h | h
  · rw [List.mem_flatMap] at h
    obtain ⟨i, hi, hm⟩ := h
    rw [List.mem_map] at hm
    obtain ⟨j, _, hje⟩ := hm
    rw [List.mem_range] at hi
    have hsnd : ((i : Nat) : Int) = y := congrArg Prod.snd hje
    omega
  · rw [List.mem_flatMap] at h
    obtain ⟨i, hi, hm⟩ := h
    rw [List.mem_map] at hm
    obtain ⟨j, _, hje⟩ := hm
    have hsnd : i = y := congrArg Prod.snd hje
    simp only [List.mem_cons, List.not_mem_nil, or_false] at hi
    rcases hi with rfl | rfl | rfl | rfl <;> omega

/-- A piece whose rotation state is non-empty is always invalid once
`y ≥ 24`: some block then lies below row 19. -/
theorem valid_space_false_of_low (g : Grid) (p : Piece)
    (hne : p.shape.getD (p.rotation % p.shape.length) [] ≠ [])
    (hy : 24 ≤ p.y) : valid_space p g = false := by
  rw [valid_space, List.all_eq_false]
  obtain ⟨ji, rest, hoff⟩ := List.exists_cons_of_ne_nil hne
  refine ⟨(p.x + (ji.1 : Int) - 2, p.y + (ji.2 : Int) - 4), ?_, ?_⟩
  · rw [generate_shape_positions, hoff]
    exact List.mem_map_of_mem _ (List.mem_cons_self ji rest)
  · simp only [decide_eq_true_eq]
    intro hmem
    have := accepted_pos_y_le g _ _ hmem
    omega

/-- The fuel passed to `dropLoop` always suffices: for a piece with a
non-empty rotation state the fuelled loop stops at an invalid position, never
by running out of fuel — exactly like the `while` loop in the source. -/
theorem dropLoop_reaches_invalid (g : Grid) :
    ∀ (fuel : Nat) (p : Piece),
      p.shape.getD (p.rotation % p.shape.length) [] ≠ [] →
      (24 : Int) ≤ p.y + (fuel : Int) →
      valid_space (dropLoop g fuel p) g = false := by
  intro fuel
  induction fuel with
  | zero =>
      intro p hne hy
      exact valid_space_false_of_low g p hne (by push_cast at hy; omega)
  | succ fuel ih =>
      intro p hne hy
      rw [dropLoop]
      by_cases hv : valid_space p g
      · rw [if_pos hv]
        have hne2 : ({ p with y := p.y + 1 } : Piece).shape.getD
            (({ p with y := p.y + 1 } : Piece).rotation %
              ({ p with y := p.y + 1 } : Piece).shape.length) [] ≠ [] := hne
        have hy2 : (24 : Int) ≤ ({ p with y := p.y + 1 } : Piece).y + (fuel : Int) := by
          show (24 : Int) ≤ (p.y + 1) + (fuel : Int)
          push_cast at hy
          omega
        exact ih _ hne2 hy2
      · rw [if_neg hv]
        exact Bool.eq_false_iff.mpr hv

/-- Setting one cell of the state matrix to `1`.  (`List.set` ignores an
out-of-range index; at every call site below the indices are within the
20×10 state, as in the source.) -/
def setCell (g : Grid) (x y : Nat) : Grid :=
  g.set y ((g.getD y []).set x true)

/-- `generate_state`: the locked grid with the piece blocks at non-negative
coordinates merged in as filled cells. -/
def generate_state (g : Grid) (p : Piece) : Grid :=
  (generate_shape_positions p).foldl
    (fun acc pos =>
      if 0 ≤ pos.1 ∧ 0 ≤ pos.2 then setCell acc pos.1.toNat pos.2.toNat else acc)
    g

/-- `generate_possible_actions`: for every rotation index and every target
column `0 … 9`, keep the `(x, rot, state)` action iff the step-by-step
simulation never hit an illegal position. -/
def generate_possible_actions (g : Grid) (p : Piece) : List (Nat × Nat × Grid) :=
  (List.range p.shape.length).flatMap (fun rot =>
    (List.range 10).filterMap (fun xN =>
      let c := candidate g p rot xN
      if c.2 then some (xN, rot, generate_state g (dropFinal g c.1)) else none))

/-! ## Specification-side description of the simulation (§4.1 of the spec)

The following definitions are written from the spec's words: the piece after
`k` single-step rotations, and the piece after `j` further single-step
horizontal moves toward the target column, each step lowering the piece one
row.  They are compared with the implementation above. -/

/-- Spec formulation: the piece after `k` single-step rotations, each
advancing one row down. -/
def specRotAt (p : Piece) (k : Nat) : Piece :=
  { p with rotation := p.rotation + k, y := p.y + (k : Int) }

/-- Spec formulation: direction of horizontal movement toward the target. -/
def specDir (fromX toX : Int) : Int :=
  if fromX < toX then 1 else if toX < fromX then -1 else 0

/-- Spec formulation: the piece after `rot` rotations followed by `j`
horizontal steps toward column `tx`, each step advancing one row down. -/
def specMoveAt (p : Piece) (rot : Nat) (tx : Int) (j : Nat) : Piece :=
  { p with x := p.x + specDir p.x tx * (j : Int),
           rotation := p.rotation + rot,
           y := p.y + (rot : Int) + (j : Int) }

/-! ### Lemmas about the step simulation -/

theorem applySteps_eq (g : Grid) (step : Piece → Piece) :
    ∀ (n : Nat) (p : Piece) (legal : Bool),
      applySteps g step n p legal =
        (step^[n] p,
         legal && ((List.range n).all (fun k => valid_space (step^[k + 1] p) g))) := by
  intro n
  induction n with
  | zero => intro p legal; simp [applySteps]
  | succ n ih =>
      intro p legal
      rw [applySteps, ih, List.range_succ_eq_map, List.all_cons, List.all_map]
      have h1 : step^[n] (step p) = step^[n + 1] p :=
        (Function.iterate_succ_apply step n p).symm
      have h2 : (fun k => valid_space (step^[k + 1] (step p)) g)
          = ((fun k => valid_space (step^[k + 1] p) g) ∘ Nat.succ) := by
        funext k
        simp only [Function.comp_apply]
        rw [← Function.iterate_succ_apply]
      rw [h1, h2]
      simp [Function.iterate_one, Bool.and_assoc]

theorem rotStep_iterate : ∀ (k : Nat) (p : Piece), rotStep^[k] p = specRotAt p k := by
  intro k
  induction k with
  | zero =>
      intro p
      cases p
      simp [specRotAt]
  | succ k ih =>
      intro p
      rw [Function.iterate_succ_apply, ih]
      cases p
      simp only [rotStep, specRotAt, Piece.mk.injEq, eq_self_iff_true, true_and, and_true]
      omega

theorem rightStep_iterate :
    ∀ (k : Nat) (p : Piece),
      rightStep^[k] p = { p with x := p.x + (k : Int), y := p.y + (k : Int) } := by
  intro k
  induction k with
  | zero =>
      intro p
      cases p
      simp
  | succ k ih =>
      intro p
      rw [Function.iterate_succ_apply, ih]
      cases p
      simp only [rightStep, Piece.mk.injEq, eq_self_iff_true, true_and, and_true]
      omega

theorem leftStep_iterate :
    ∀ (k : Nat) (p : Piece),
      leftStep^[k] p = { p with x := p.x - (k : Int), y := p.y + (k : Int) } := by
  intro k
  induction k with
  | zero =>
      intro p
      cases p
      simp
  | succ k ih =>
      intro p
      rw [Function.iterate_succ_apply, ih]
      cases p
      simp only [leftStep, Piece.mk.injEq, eq_self_iff_true, true_and, and_true]
      omega

/-- The `legal_move` flag of one candidate is the conjunction of the validity
check after each single rotation step and after each single horizontal step. -/
theorem candidate_snd (g : Grid) (p : Piece) (rot xN : Nat) :
    (candidate g p rot xN).2 =
      (((List.range rot).all (fun k => valid_space (specRotAt p (k + 1)) g)) &&
       ((List.range (p.x - (xN : Int)).natAbs).all
         (fun j => valid_space (specMoveAt p rot (xN : Int) (j + 1)) g))) := by
  have hrotfun : (fun k => valid_space (rotStep^[k + 1] p) g)
      = (fun k => valid_space (specRotAt p (k + 1)) g) := by
    funext k
    rw [rotStep_iterate]
  have hbase : applySteps g rotStep rot p true
      = (specRotAt p rot,
         (List.range rot).all (fun k => valid_space (specRotAt p (k + 1)) g)) := by
    rw [applySteps_eq, rotStep_iterate, hrotfun, Bool.true_and]
  have hpx : (specRotAt p rot).x = p.x := rfl
  simp only [candidate, hbase, hpx]
  rcases lt_trichotomy p.x ((xN : Nat) : Int) with hlt | heq | hgt
  · rw [if_pos (by omega : p.x - (xN : Int) < 0), applySteps_eq]
    have hfun : (fun j => valid_space (rightStep^[j + 1] (specRotAt p rot)) g)
        = (fun j => valid_space (specMoveAt p rot (xN : Int) (j + 1)) g) := by
      funext j
      rw [rightStep_iterate]
      have hdir : specDir p.x (xN : Int) = 1 := by
        simp only [specDir]
        rw [if_pos hlt]
      simp only [specRotAt, specMoveAt, hdir, Piece.mk.injEq, eq_self_iff_true,
        true_and, and_true, one_mul]
    rw [hfun]
  · rw [if_neg (by omega : ¬(p.x - (xN : Int) < 0)),
        if_neg (by omega : ¬(0 < p.x - (xN : Int))),
        (by omega : (p.x - (xN : Int)).natAbs = 0)]
    simp
  · rw [if_neg (by omega : ¬(p.x - (xN : Int) < 0)),
        if_pos (by omega : 0 < p.x - (xN : Int)), applySteps_eq]
    have hfun : (fun j => valid_space (leftStep^[j + 1] (specRotAt p rot)) g)
        = (fun j => valid_space (specMoveAt p rot (xN : Int) (j + 1)) g) := by
      funext j
      rw [leftStep_iterate]
      have hdir : specDir p.x (xN : Int) = -1 := by
        simp only [specDir]
        rw [if_neg (by omega : ¬(p.x < (xN : Int))), if_pos hgt]
      simp only [specRotAt, specMoveAt, hdir, Piece.mk.injEq, eq_self_iff_true,
        true_and, and_true, neg_mul, one_mul]
      rw [sub_eq_add_neg]
    rw [hfun]

/-- Bridge between the boolean `all` over `List.range` and the
universally-quantified per-step validity statement. -/
theorem range_all_succ_iff (f : Nat → Bool) (n : Nat) :
    ((List.range n).all (fun k => f (k + 1)) = true) ↔
      (∀ k, 1 ≤ k → k ≤ n → f k = true) := by
  simp only [List.all_eq_true, List.mem_range]
  constructor
  · intro h k h1 h2
    cases k with
    | zero => omega
    | succ k => exact h k (by omega)
  · intro h k hk
    exact h (k + 1) (by omega) (by omega)

/-- Membership in the returned action list, characterised by the bounds of the
two loops and the `legal_move` flag of the candidate's simulation. -/
theorem mem_generate_possible_actions (g : Grid) (p : Piece) (xN rot : Nat) (s : Grid) :
    (xN, rot, s) ∈ generate_possible_actions g p ↔
      (rot < p.shape.length ∧ xN < 10 ∧ (candidate g p rot xN).2 = true ∧
        s = generate_state g (dropFinal g (candidate g p rot xN).1)) := by
  simp only [generate_possible_actions, List.mem_flatMap, List.mem_filterMap,
    List.mem_range]
  constructor
  · rintro ⟨rot', hrot', xN', hxN', hsome⟩
    by_cases hc : (candidate g p rot' xN').2
    · rw [if_pos hc, Option.some.injEq, Prod.mk.injEq, Prod.mk.injEq] at hsome
      obtain ⟨hx1, hx2, hx3⟩ := hsome
      subst hx1; subst hx2; subst hx3
      exact ⟨hrot', hxN', hc, rfl⟩
    · rw [if_neg hc] at hsome
      exact absurd hsome (by simp)
  · rintro ⟨hrot, hx, hc, hs⟩
    exact ⟨rot, hrot, xN, hx, by rw [if_pos hc, hs]⟩

/-- **C1.**  In placement enumeration, for every board, piece, rotation count
`rot` and target column `xN`, the `(rot, xN)` candidate appears in the
returned action list exactly when every simulated single-step rotation and
every simulated single-step horizontal move passes the validity check against
the board — an invalid intermediate step excludes the whole candidate — and
every such simulated step advances the piece exactly one row downward
(`y` grows by one per step). -/
theorem c1_stepwise_simulation (g : Grid) (p : Piece) (rot xN : Nat)
    (hrot : rot < p.shape.length) (hx : xN < 10) :
    ((∃ s, (xN, rot, s) ∈ generate_possible_actions g p) ↔
      ((∀ k, 1 ≤ k → k ≤ rot → valid_space (specRotAt p k) g = true) ∧
       (∀ j, 1 ≤ j → j ≤ (p.x - (xN : Int)).natAbs →
          valid_space (specMoveAt p rot (xN : Int) j) g = true)))
    ∧ (∀ k, (specRotAt p k).y = p.y + (k : Int))
    ∧ (∀ j, (specMoveAt p rot (xN : Int) j).y = p.y + (rot : Int) + (j : Int)) := by
  refine ⟨?_, fun k => rfl, fun j => rfl⟩
  constructor
  · rintro ⟨s, hs⟩
    rw [mem_generate_possible_actions] at hs
    have hc := hs.2.2.1
    rw [candidate_snd, Bool.and_eq_true] at hc
    exact ⟨(range_all_succ_iff _ _).1 hc.1, (range_all_succ_iff _ _).1 hc.2⟩
  · rintro ⟨h1, h2⟩
    refine ⟨generate_state g (dropFinal g (candidate g p rot xN).1), ?_⟩
    rw [mem_generate_possible_actions]
    refine ⟨hrot, hx, ?_, rfl⟩
    rw [candidate_snd, Bool.and_eq_true]
    exact ⟨(range_all_succ_iff _ _).2 h1, (range_all_succ_iff _ _).2 h2⟩

/-- The all-empty 20×10 grid (no locked positions). -/
def emptyGrid : Grid := List.replicate 20 (List.replicate 10 false)

/-- Witness for `c1_stepwise_simulation` at a concrete board, piece, rotation
and column. -/
theorem c1_stepwise_simulation_witness :
    (1 < (get_shape_piece T_tet).shape.length ∧ 3 < 10) ∧
    (((∃ s, (3, 1, s) ∈ generate_possible_actions emptyGrid (get_shape_piece T_tet)) ↔
      ((∀ k, 1 ≤ k → k ≤ 1 →
          valid_space (specRotAt (get_shape_piece T_tet) k) emptyGrid = true) ∧
       (∀ j, 1 ≤ j → j ≤ ((get_shape_piece T_tet).x - ((3 : Nat) : Int)).natAbs →
          valid_space (specMoveAt (get_shape_piece T_tet) 1 ((3 : Nat) : Int) j)
            emptyGrid = true)))
    ∧ (∀ k, (specRotAt (get_shape_piece T_tet) k).y =
        (get_shape_piece T_tet).y + (k : Int))
    ∧ (∀ j, (specMoveAt (get_shape_piece T_tet) 1 ((3 : Nat) : Int) j).y =
        (get_shape_piece T_tet).y + ((1 : Nat) : Int) + (j : Int))) :=
  ⟨⟨by decide, by decide⟩,
    c1_stepwise_simulation emptyGrid (get_shape_piece T_tet) 1 3
      (by decide) (by decide)⟩

/-! ### C2: duplicate-freeness, size bound and enumeration order -/

/-- The `(column, rotation)` projection of the returned action list. -/
def actionPairs (g : Grid) (p : Piece) : List (Nat × Nat) :=
  (generate_possible_actions g p).map (fun a => (a.1, a.2.1))

/-- The full rotation-major, column-minor enumeration of `(column, rotation)`
pairs followed by the two nested loops. -/
def allPairs (p : Piece) : List (Nat × Nat) :=
  (List.range p.shape.length).flatMap (fun rot =>
    (List.range 10).map (fun xN => (xN, rot)))

theorem filterMap_ite_some (l : List Nat) (p : Nat → Bool) (f : Nat → Nat × Nat) :
    l.filterMap (fun x => if p x then some (f x) else none) = (l.filter p).map f := by
  induction l with
  | nil => rfl
  | cons a t ih =>
      by_cases h : p a
      · simp [List.filterMap_cons, List.filter_cons, h, ih]
      · simp [List.filterMap_cons, List.filter_cons, h, ih]

/-- The `(column, rotation)` projection of the enumeration is exactly the full
rotation-major, column-minor pair enumeration filtered by the legality flag. -/
theorem actionPairs_eq (g : Grid) (p : Piece) :
    actionPairs g p =
      (allPairs p).filter (fun pr => (candidate g p pr.2 pr.1).2) := by
  unfold actionPairs generate_possible_actions allPairs
  rw [List.map_flatMap, List.filter_flatMap]
  congr 1
  funext rot
  rw [List.map_filterMap]
  have hopt : (fun xN =>
      (if (candidate g p rot xN).2 then
        some (xN, rot, generate_state g (dropFinal g (candidate g p rot xN).1))
       else none).map (fun a => (a.1, a.2.1)))
      = (fun xN => if (candidate g p rot xN).2 then some (xN, rot) else none) := by
    funext xN
    by_cases h : (candidate g p rot xN).2
    · rw [if_pos h, if_pos h]
      rfl
    · rw [if_neg h, if_neg h]
      rfl
  rw [hopt, filterMap_ite_some, List.filter_map]
  rfl

theorem allPairs_nodup (p : Piece) : (allPairs p).Nodup := by
  unfold allPairs
  rw [List.nodup_flatMap]
  constructor
  · intro rot _
    exact (List.nodup_range 10).map (fun a b h => by
      simpa using congrArg Prod.fst h)
  · have hne : (List.range p.shape.length).Pairwise (· ≠ ·) := List.nodup_range _
    refine hne.imp ?_
    intro a b hab pr hpa hpb
    rw [List.mem_map] at hpa hpb
    obtain ⟨xa, _, ha⟩ := hpa
    obtain ⟨xb, _, hb⟩ := hpb
    apply hab
    have := ha.trans hb.symm
    simpa using congrArg Prod.snd this

theorem allPairs_length (p : Piece) : (allPairs p).length = p.shape.length * 10 := by
  unfold allPairs
  rw [List.length_flatMap]
  have h2 : (List.map (List.length ∘ fun rot => (List.range 10).map (fun xN => (xN, rot)))
      (List.range p.shape.length))
      = List.map (fun _ => 10) (List.range p.shape.length) := by
    apply List.map_congr_left
    intro a _
    simp
  rw [h2, List.map_const', List.length_range, List.sum_replicate, smul_eq_mul]

/-- **C2.**  For every board and piece, the returned list of
`generate_possible_actions` projects to `(column, rotation)` pairs that are
exactly the rotation-major, column-minor enumeration filtered by legality
(fixing the deterministic order), contains no duplicate pairs, has at most
`rotation_count × 10` elements, and two calls with identical inputs return
identical lists. -/
theorem c2_nodup_bound_order (g : Grid) (p : Piece) :
    actionPairs g p = (allPairs p).filter (fun pr => (candidate g p pr.2 pr.1).2)
    ∧ (actionPairs g p).Nodup
    ∧ (generate_possible_actions g p).length ≤ p.shape.length * 10
    ∧ generate_possible_actions g p = generate_possible_actions g p := by
  refine ⟨actionPairs_eq g p, ?_, ?_, rfl⟩
  · rw [actionPairs_eq]
    exact (allPairs_nodup p).filter _
  · have h1 : (generate_possible_actions g p).length = (actionPairs g p).length :=
      (List.length_map _ _).symm
    rw [h1, actionPairs_eq]
    calc ((allPairs p).filter (fun pr => (candidate g p pr.2 pr.1).2)).length
        ≤ (allPairs p).length := List.length_filter_le _ _
      _ = p.shape.length * 10 := allPairs_length p

/-! ### C3: a freshly spawned piece always has at least one action -/

/-- Number of rows of the grid containing at least one filled cell. -/
def filledRowCount (g : Grid) : Nat :=
  (g.filter (fun row => row.any (fun c => c))).length

/-- The spawn-column candidate with zero rotations needs no simulated inputs,
so its `legal_move` flag is `true` on every board. -/
theorem candidate_spawn (g : Grid) (sh : List (List (Nat × Nat))) :
    candidate g (get_shape_piece sh) 0 5 = (get_shape_piece sh, true) := by
  simp [candidate, applySteps, get_shape_piece]

/-- **C3.**  For every board with fewer than 4 filled rows and a freshly
spawned piece, `generate_possible_actions` returns at least one action; in
particular the candidate at the spawn column 5 with zero additional rotations
is always present. -/
theorem c3_spawn_nonempty (g : Grid) (sh : List (List (Nat × Nat)))
    (hsh : sh ∈ shapes) (hrows : filledRowCount g < 4) :
    generate_possible_actions g (get_shape_piece sh) ≠ []
    ∧ ∃ s, (5, 0, s) ∈ generate_possible_actions g (get_shape_piece sh) := by
  have hlen : 0 < (get_shape_piece sh).shape.length := by
    fin_cases hsh <;> decide
  have hmem : (5, 0, generate_state g (dropFinal g (get_shape_piece sh)))
      ∈ generate_possible_actions g (get_shape_piece sh) := by
    rw [mem_generate_possible_actions]
    refine ⟨hlen, by norm_num, ?_, ?_⟩
    · rw [candidate_spawn]
    · rw [candidate_spawn]
  exact ⟨List.ne_nil_of_mem hmem, ⟨_, hmem⟩⟩

/-- Witness for `c3_spawn_nonempty` on the empty board with the S piece. -/
theorem c3_spawn_nonempty_witness :
    (S_tet ∈ shapes ∧ filledRowCount emptyGrid < 4) ∧
    (generate_possible_actions emptyGrid (get_shape_piece S_tet) ≠ []
     ∧ ∃ s, (5, 0, s) ∈ generate_possible_actions emptyGrid (get_shape_piece S_tet)) :=
  ⟨⟨by decide, by decide⟩,
   c3_spawn_nonempty emptyGrid S_tet (by decide) (by decide)⟩

/-! ## Hole counting (`compute_holes` in `tetris.py`, identical to
`ElTetrisAgent.get_holes`)

The source scans each column from the bottom row up, keeping an
`empty_space` flag: the flag is raised on an empty cell, and a hole is
counted (and the flag dropped) whenever a filled cell is met while the flag
is raised. -/

/-- One column of the scan of `compute_holes`: the list is traversed in scan
order (bottom row first), `flag` is the `empty_space` boolean. -/
def holesColAux : List Bool → Bool → Nat
  | [], _ => 0
  | c :: rest, flag =>
      if flag = false ∧ c = false then holesColAux rest true
      else if flag = true ∧ c = true then holesColAux rest false + 1
      else holesColAux rest flag

/-- Column `x` of the state, top row first. -/
def column (g : Grid) (x : Nat) : List Bool :=
  g.map (fun row => row.getD x false)

/-- The bottom-to-top scan of one column. -/
def holesCol (col : List Bool) : Nat :=
  holesColAux col.reverse false

/-- `compute_holes`: sum of the per-column scans over all columns of the
state. -/
def compute_holes (g : Grid) : Nat :=
  ((List.range (g.headD []).length).map (fun x => holesCol (column g x))).sum

/-- Number of adjacent vertical pairs, in one column read top-to-bottom,
consisting of a filled cell directly above an empty cell (one count per
maximal empty run capped by a filled cell). -/
def pairsTF : List Bool → Nat
  | a :: b :: t => (if a = true ∧ b = false then 1 else 0) + pairsTF (b :: t)
  | _ => 0

/-- Amended hole count: per column, the number of positions where a filled
cell lies directly above an empty cell. -/
def filled_over_empty_count (g : Grid) : Nat :=
  ((List.range (g.headD []).length).map (fun x => pairsTF (column g x))).sum

/-- Spec-side (claim C9) cell-counting formulation: the number of empty cells
with at least one filled cell above them in the same column. -/
def empty_with_filled_above_count (g : Grid) : Nat :=
  ((List.range (g.headD []).length).map (fun x =>
    ((List.range g.length).filter (fun y =>
      gridCell g x y = false && (List.range y).any (fun z => gridCell g x z))).length)).sum

theorem holesColAux_cons (a : Bool) (t : List Bool) (f : Bool) :
    holesColAux (a :: t) f = (if f = true ∧ a = true then 1 else 0) + holesColAux t (!a) := by
  cases f <;> cases a <;> simp [holesColAux, Nat.add_comm]

/-- The `empty_space` flag after scanning a list, starting from `f`. -/
def flagAfter : List Bool → Bool → Bool
  | [], f => f
  | c :: r, _ => flagAfter r (!c)

theorem holesColAux_append_singleton (a : Bool) :
    ∀ (r : List Bool) (f : Bool),
      holesColAux (r ++ [a]) f
        = holesColAux r f + (if flagAfter r f = true ∧ a = true then 1 else 0) := by
  intro r
  induction r with
  | nil =>
      intro f
      rw [List.nil_append, holesColAux_cons]
      simp [holesColAux, flagAfter, Nat.add_comm]
  | cons c r ih =>
      intro f
      rw [List.cons_append, holesColAux_cons, ih, holesColAux_cons]
      have hfa : flagAfter (c :: r) f = flagAfter r (!c) := rfl
      rw [hfa]
      omega

theorem flagAfter_append_singleton (a : Bool) :
    ∀ (r : List Bool) (f : Bool), flagAfter (r ++ [a]) f = !a := by
  intro r
  induction r with
  | nil => intro f; rfl
  | cons c r ih => intro f; exact ih (!c)

theorem flagAfter_reverse_cons (b : Bool) (t : List Bool) :
    flagAfter ((b :: t).reverse) false = !b := by
  rw [List.reverse_cons, flagAfter_append_singleton]

/-- The bottom-to-top `empty_space` scan of one column counts exactly the
vertical (filled, empty-below) adjacencies of that column. -/
theorem holesCol_eq_pairsTF : ∀ (col : List Bool), holesCol col = pairsTF col := by
  intro col
  induction col with
  | nil => rfl
  | cons a t ih =>
      rw [holesCol, List.reverse_cons, holesColAux_append_singleton]
      cases t with
      | nil => cases a <;> simp [holesColAux, flagAfter, pairsTF]
      | cons b t2 =>
          rw [flagAfter_reverse_cons]
          rw [show holesColAux (b :: t2).reverse false = holesCol (b :: t2) from rfl, ih]
          cases a <;> cases b <;> simp [pairsTF, Nat.add_comm]

/-- **C9 (amended).**  For every board state, `compute_holes` equals, per
column, the number of positions where a filled cell lies directly above an
empty cell — one count per maximal empty run capped by a filled cell — not
the number of empty cells having some filled cell above them. -/
theorem c9_holes_run_count (g : Grid) :
    compute_holes g = filled_over_empty_count g := by
  unfold compute_holes filled_over_empty_count
  congr 1
  apply List.map_congr_left
  intro x _
  exact holesCol_eq_pairsTF (column g x)

/-- A 20×10 board whose only filled cell is the top of column 0. -/
def holesCtexGrid : Grid :=
  (true :: List.replicate 9 false) :: List.replicate 19 (List.replicate 10 false)

/-- **C9 counterexample.**  On a board whose only filled cell tops column 0,
`compute_holes` reports 1 hole while 19 empty cells have a filled cell above
them, so the claimed cell-counting formulation disagrees with the code. -/
theorem c9_cell_count_counterexample :
    compute_holes holesCtexGrid = 1
    ∧ empty_with_filled_above_count holesCtexGrid = 19
    ∧ compute_holes holesCtexGrid ≠ empty_with_filled_above_count holesCtexGrid := by
  refine ⟨by decide, by decide, by decide⟩

/-! ## Well score (`ElTetrisAgent.get_wells` in `eltetris_agent_new.py`)

For each interior column the code finds the topmost empty cell flanked by two
filled cells, scores 1 for it and `depth + 1` for every consecutive empty
cell below, then breaks.  The two edge-column checks appear *inside* the
interior-column loop (`for x in range(1, 9)`), so they are re-run and
re-added once per interior column — this nesting is reproduced faithfully. -/

/-- The `for new_y in range(y+1, 20)` extension loop: each consecutive empty
cell below the well start adds `well_depth + 1`. -/
def extendWell : List Bool → Nat → Nat
  | [], _ => 0
  | c :: rest, depth =>
      if c = false then (depth + 1) + extendWell rest (depth + 1) else 0

/-- The cells of column `x` strictly below row `y` (rows `y+1 … 19`). -/
def cellsBelow (g : Grid) (x y : Nat) : List Bool :=
  (List.range' (y + 1) (19 - y)).map (fun yy => gridCell g x yy)

/-- Interior-column well scan for column `x` (flanked on both sides). -/
def centerWellScore (g : Grid) (x : Nat) : Nat :=
  match (List.range 20).find? (fun y =>
      gridCell g x y = false && gridCell g (x - 1) y && gridCell g (x + 1) y) with
  | some y => 1 + extendWell (cellsBelow g x y) 1
  | none => 0

/-- Edge-column well scan (flanked by the single interior neighbour). -/
def sideWellScore (g : Grid) (edge inner : Nat) : Nat :=
  match (List.range 20).find? (fun y =>
      gridCell g edge y = false && gridCell g inner y) with
  | some y => 1 + extendWell (cellsBelow g edge y) 1
  | none => 0

/-- `get_wells`: the interior columns `1 … 8` each contribute their own scan,
and — because of the loop nesting in the source — the two edge scans are
added once per interior column as well. -/
def get_wells (g : Grid) : Nat :=
  ((List.range' 1 8).map (fun x =>
    centerWellScore g x + sideWellScore g 0 1 + sideWellScore g 9 8)).sum

/-- A 20×10 board entirely filled except for the single cell `(cx, cy)`. -/
def fullExcept (cx cy : Nat) : Grid :=
  (List.range 20).map (fun y =>
    (List.range 10).map (fun x => !(decide (x = cx) && decide (y = cy))))

/-- **C10.**  A single-cell interior well scores exactly 1, as claimed; but a
single-cell well in edge column 0 scores 8, because the edge-column checks
are nested inside the interior-column loop and re-added for each of the 8
interior columns — the claimed exact-1 contribution fails on edge columns. -/
theorem c10_wells_edge_overcount :
    get_wells (fullExcept 5 10) = 1 ∧ get_wells (fullExcept 0 10) = 8 := by
  refine ⟨by decide, by decide⟩

/-! ## Plain replay buffer (`DQLAgentNew`)

`self.experience_replay = deque(maxlen=experience_replay_size)`: appending to
a full deque discards the oldest element first.  `dequeAppend` is a direct
model of one `append` on a `deque` with `maxlen = cap`. -/

/-- An experience tuple `(state, reward, next_state, terminated)`. -/
structure Exp (σ : Type) where
  state : σ
  reward : ℚ
  next_state : σ
  terminated : Bool
deriving DecidableEq

/-- One `append` on a bounded deque: keep the last `cap` elements of the
extended list. -/
def dequeAppend {α : Type} (cap : Nat) (l : List α) (x : α) : List α :=
  (l ++ [x]).drop (l.length + 1 - cap)

/-- A sequence of `insert_experience` calls starting from an empty buffer
(only the `experience_replay.append` of each call affects the buffer). -/
def insertAll {α : Type} (cap : Nat) (xs : List α) : List α :=
  xs.foldl (dequeAppend cap) []

theorem foldl_dequeAppend_eq {α : Type} (cap : Nat) :
    ∀ (ys acc : List α), acc.length ≤ cap →
      ys.foldl (dequeAppend cap) acc = (acc ++ ys).drop ((acc ++ ys).length - cap) := by
  intro ys
  induction ys with
  | nil =>
      intro acc h
      simp only [List.foldl_nil, List.append_nil]
      rw [Nat.sub_eq_zero_of_le h, List.drop_zero]
  | cons x ys ih =>
      intro acc h
      rw [List.foldl_cons]
      have hAlen : (dequeAppend cap acc x).length ≤ cap := by
        simp only [dequeAppend, List.length_drop, List.length_append,
          List.length_cons, List.length_nil]
        omega
      rw [ih _ hAlen]
      have hd : acc.length + 1 - cap ≤ (acc ++ [x]).length := by
        simp only [List.length_append, List.length_cons, List.length_nil]
        omega
      rw [dequeAppend, ← List.drop_append_of_le_length hd, List.drop_drop,
        List.append_assoc, List.singleton_append]
      congr 1
      simp only [List.length_drop, List.length_append, List.length_cons,
        List.length_nil]
      omega

/-- **C5.**  The plain replay buffer never exceeds its capacity, and eviction
is FIFO: inserting `cap + 1` distinct experiences into an initially empty
buffer leaves exactly the last `cap` insertions in insertion order. -/
theorem c5_replay_fifo {σ : Type} (cap : Nat) (xs : List (Exp σ))
    (hnd : xs.Nodup) (hlen : xs.length = cap + 1) :
    (∀ ys : List (Exp σ), (insertAll cap ys).length ≤ cap)
    ∧ insertAll cap xs = xs.drop 1 := by
  constructor
  · intro ys
    rw [insertAll, foldl_dequeAppend_eq cap ys [] (by simp), List.nil_append]
    simp only [List.length_drop]
    omega
  · rw [insertAll, foldl_dequeAppend_eq cap xs [] (by simp), List.nil_append, hlen]
    congr 1
    omega

/-- Witness for `c5_replay_fifo` with capacity 2 and three distinct
experiences. -/
theorem c5_replay_fifo_witness :
    (([⟨0, 1, 0, false⟩, ⟨0, 2, 0, false⟩, ⟨0, 3, 0, true⟩] : List (Exp ℚ)).Nodup
     ∧ ([⟨0, 1, 0, false⟩, ⟨0, 2, 0, false⟩, ⟨0, 3, 0, true⟩] : List (Exp ℚ)).length = 2 + 1)
    ∧ ((∀ ys : List (Exp ℚ), (insertAll 2 ys).length ≤ 2)
       ∧ insertAll 2 ([⟨0, 1, 0, false⟩, ⟨0, 2, 0, false⟩, ⟨0, 3, 0, true⟩] : List (Exp ℚ))
          = ([⟨0, 1, 0, false⟩, ⟨0, 2, 0, false⟩, ⟨0, 3, 0, true⟩] : List (Exp ℚ)).drop 1) :=
  ⟨⟨by decide, by decide⟩, c5_replay_fifo 2 _ (by decide) (by decide)⟩

/-! ## Epsilon schedule (`DQLAgentNew.finish_epoch` and the `epsilon_decay`
computation in `tetris.py`) -/

/-- The epsilon-related state of the agent (`current_epoch` starts at 1). -/
structure AgentEps where
  initial_epsilon : ℚ
  epsilon_decay : ℚ
  minimum_epsilon : ℚ
  epsilon : ℚ
  current_epoch : Nat

/-- The epsilon/epoch update of `finish_epoch`:
`epsilon = initial_epsilon - epsilon_decay * current_epoch`, clamped below at
`minimum_epsilon`, then `current_epoch += 1`. -/
def finish_epoch_eps (a : AgentEps) : AgentEps :=
  let e := a.initial_epsilon - a.epsilon_decay * (a.current_epoch : ℚ)
  { a with epsilon := if e < a.minimum_epsilon then a.minimum_epsilon else e,
           current_epoch := a.current_epoch + 1 }

/-- The decay computed in `tetris.py`:
`(epsilon - minimum_epsilon) / ((total_epochs * epsilon_percentage) / 100)`. -/
def epsilon_decay_value (epsilon minimum_epsilon total_epochs epsilon_percentage : ℚ) : ℚ :=
  (epsilon - minimum_epsilon) / ((total_epochs * epsilon_percentage) / 100)

theorem finish_epoch_iterate_fields (a : AgentEps) :
    ∀ n : Nat,
      (finish_epoch_eps^[n] a).current_epoch = a.current_epoch + n
      ∧ (finish_epoch_eps^[n] a).initial_epsilon = a.initial_epsilon
      ∧ (finish_epoch_eps^[n] a).epsilon_decay = a.epsilon_decay
      ∧ (finish_epoch_eps^[n] a).minimum_epsilon = a.minimum_epsilon := by
  intro n
  induction n with
  | zero => exact ⟨rfl, rfl, rfl, rfl⟩
  | succ n ih =>
      rw [Function.iterate_succ_apply']
      refine ⟨?_, ?_, ?_, ?_⟩
      · show (finish_epoch_eps^[n] a).current_epoch + 1 = a.current_epoch + (n + 1)
        omega
      · exact ih.2.1
      · exact ih.2.2.1
      · exact ih.2.2.2

theorem epsilon_after_iterate (a : AgentEps) (e : Nat)
    (h1 : a.current_epoch = 1) (he : 1 ≤ e) :
    (finish_epoch_eps^[e] a).epsilon
      = max a.minimum_epsilon (a.initial_epsilon - a.epsilon_decay * (e : ℚ)) := by
  obtain ⟨k, rfl⟩ : ∃ k, e = k + 1 := ⟨e - 1, by omega⟩
  rw [Function.iterate_succ_apply']
  have hf := finish_epoch_iterate_fields a k
  show (if (finish_epoch_eps^[k] a).initial_epsilon -
        (finish_epoch_eps^[k] a).epsilon_decay * ((finish_epoch_eps^[k] a).current_epoch : ℚ)
        < (finish_epoch_eps^[k] a).minimum_epsilon
      then (finish_epoch_eps^[k] a).minimum_epsilon
      else (finish_epoch_eps^[k] a).initial_epsilon -
        (finish_epoch_eps^[k] a).epsilon_decay * ((finish_epoch_eps^[k] a).current_epoch : ℚ))
      = _
  rw [hf.1, hf.2.1, hf.2.2.1, hf.2.2.2, h1]
  have hc : ((1 + k : Nat) : ℚ) = ((k + 1 : Nat) : ℚ) := by push_cast; ring
  rw [hc]
  split_ifs with h
  · exact (max_eq_left h.le).symm
  · exact (max_eq_right (not_lt.1 h)).symm

/-- The concrete configuration of the claim: `ε_initial = 1.0`,
`ε_min = 0.1`, `epsilon_percentage = 75`, `total_epochs = 100`. -/
def epsilon_schedule_agent : AgentEps :=
  { initial_epsilon := 1,
    epsilon_decay := epsilon_decay_value 1 (1/10) 100 75,
    minimum_epsilon := 1/10,
    epsilon := 1,
    current_epoch := 1 }

/-- **C4.**  After `finish_epoch` has been called `e ≥ 1` times, epsilon is
`max(ε_min, ε_initial − decay·e)`; with the claim's concrete configuration
(decay computed as in `tetris.py`), epsilon equals `0.1` after epoch 75 and
stays `0.1` through epoch 100. -/
theorem c4_epsilon_schedule (a : AgentEps) (e : Nat)
    (h1 : a.current_epoch = 1) (he : 1 ≤ e) :
    (finish_epoch_eps^[e] a).epsilon
      = max a.minimum_epsilon (a.initial_epsilon - a.epsilon_decay * (e : ℚ))
    ∧ (finish_epoch_eps^[75] epsilon_schedule_agent).epsilon = 1/10
    ∧ (∀ e2 : Nat, 75 ≤ e2 → e2 ≤ 100 →
        (finish_epoch_eps^[e2] epsilon_schedule_agent).epsilon = 1/10) := by
  have hdecv : epsilon_schedule_agent.epsilon_decay = 3/250 := by
    norm_num [epsilon_schedule_agent, epsilon_decay_value]
  refine ⟨epsilon_after_iterate a e h1 he, ?_, ?_⟩
  · rw [epsilon_after_iterate epsilon_schedule_agent 75 rfl (by norm_num), hdecv]
    norm_num [epsilon_schedule_agent]
  · intro e2 h75 h100
    rw [epsilon_after_iterate epsilon_schedule_agent e2 rfl (by omega), hdecv]
    have hcast : (75 : ℚ) ≤ (e2 : ℚ) := by exact_mod_cast h75
    have hle : epsilon_schedule_agent.initial_epsilon - 3/250 * (e2 : ℚ)
        ≤ epsilon_schedule_agent.minimum_epsilon := by
      show (1 : ℚ) - 3/250 * (e2 : ℚ) ≤ 1/10
      linarith
    rw [max_eq_left hle]
    rfl

/-- Witness for `c4_epsilon_schedule` at the claim's configuration after one
epoch. -/
theorem c4_epsilon_schedule_witness :
    (epsilon_schedule_agent.current_epoch = 1 ∧ 1 ≤ 1) ∧
    ((finish_epoch_eps^[1] epsilon_schedule_agent).epsilon
      = max epsilon_schedule_agent.minimum_epsilon
          (epsilon_schedule_agent.initial_epsilon
            - epsilon_schedule_agent.epsilon_decay * ((1 : Nat) : ℚ))
    ∧ (finish_epoch_eps^[75] epsilon_schedule_agent).epsilon = 1/10
    ∧ (∀ e2 : Nat, 75 ≤ e2 → e2 ≤ 100 →
        (finish_epoch_eps^[e2] epsilon_schedule_agent).epsilon = 1/10)) :=
  ⟨⟨rfl, le_refl 1⟩,
   c4_epsilon_schedule epsilon_schedule_agent 1 rfl (le_refl 1)⟩

/-! ## Training targets (`DQLAgentNew._learn_from_replay`)

The network predictions are abstracted as functions from states to scalars.
`q_predict` stands for `self.q_network.predict` (used by the source only in
the final `fit` call) and `target_predict` for
`self.target_network.predict`. -/

/-- The `states_predictions` list built by the loop of `_learn_from_replay`:
`reward` if terminated, otherwise
`reward + gamma * next_states_predictions[i]`, where
`next_states_predictions` is the batch target-network prediction over the
extracted `next_states`. -/
def learn_targets {σ : Type} (gamma : ℚ) (q_predict target_predict : σ → ℚ)
    (batch : List (Exp σ)) : List ℚ :=
  let next_states := batch.map (fun e => e.next_state)
  let next_preds := next_states.map target_predict
  (batch.zip next_preds).map
    (fun be => if be.1.terminated then be.1.reward else be.1.reward + gamma * be.2)

theorem zip_map_self {α β γ : Type} (f : α → β) (g : α × β → γ) :
    ∀ l : List α, (l.zip (l.map f)).map g = l.map (fun a => g (a, f a)) := by
  intro l
  induction l with
  | nil => rfl
  | cons a t ih => simp [ih]

theorem learn_targets_eq_map {σ : Type} (gamma : ℚ) (q_predict target_predict : σ → ℚ)
    (batch : List (Exp σ)) :
    learn_targets gamma q_predict target_predict batch
      = batch.map (fun b => if b.terminated then b.reward
          else b.reward + gamma * target_predict b.next_state) := by
  unfold learn_targets
  dsimp only
  rw [List.map_map, zip_map_self]
  simp only [Function.comp_apply]

/-- **C8.**  Every training target equals the raw reward when the experience
is terminal, and `reward + γ · target_predict next_state` otherwise; the
target is computed from the target network — it does not depend on the
trainable network's predictions. -/
theorem c8_training_targets {σ : Type} (gamma : ℚ)
    (q1 q2 target_predict : σ → ℚ) (batch : List (Exp σ))
    (i : Nat) (h : i < batch.length) :
    (learn_targets gamma q1 target_predict batch)[i]?
      = some (if batch[i].terminated then batch[i].reward
              else batch[i].reward + gamma * target_predict batch[i].next_state)
    ∧ learn_targets gamma q1 target_predict batch
        = learn_targets gamma q2 target_predict batch := by
  refine ⟨?_, rfl⟩
  rw [learn_targets_eq_map, List.getElem?_map, List.getElem?_eq_getElem h]
  rfl

/-- Witness for `c8_training_targets` on a one-element non-terminal batch. -/
theorem c8_training_targets_witness :
    (0 < ([⟨5, 2, 7, false⟩] : List (Exp ℚ)).length) ∧
    ((learn_targets (1/2) (fun _ => 0) (fun s => s) ([⟨5, 2, 7, false⟩] : List (Exp ℚ)))[0]?
      = some (if (([⟨5, 2, 7, false⟩] : List (Exp ℚ))[0]).terminated
              then (([⟨5, 2, 7, false⟩] : List (Exp ℚ))[0]).reward
              else (([⟨5, 2, 7, false⟩] : List (Exp ℚ))[0]).reward
                + (1/2) * (fun s => s) ((([⟨5, 2, 7, false⟩] : List (Exp ℚ))[0]).next_state))
    ∧ learn_targets (1/2) (fun _ => (0 : ℚ)) (fun s => s) ([⟨5, 2, 7, false⟩] : List (Exp ℚ))
        = learn_targets (1/2) (fun _ => 1) (fun s => s) ([⟨5, 2, 7, false⟩] : List (Exp ℚ))) :=
  ⟨by decide,
   c8_training_targets (1/2) (fun _ => 0) (fun _ => 1) (fun s => s)
     ([⟨5, 2, 7, false⟩] : List (Exp ℚ)) 0 (by decide)⟩

/-! ## Prioritized replay buffer (`PrioritizedAgentNew`)

Entries are the tuples `(error, insertion, experience)` appended by
`insert_experience`; the error field is a Python float, `float('inf')` at
insertion.  `sorted(queue, key=lambda order: (order[0], order[1]),
reverse=True)` is Python's *stable* sort by the `(priority, insertion)` key
in descending order, modelled by a stable insertion sort with the comparator
"key of the left argument is lexicographically ≥ key of the right argument".
The source initialises `self.insertion = 0` and never increments it. -/

/-- A Python float priority: `float('inf')` or a finite value. -/
inductive Priority where
  | inf : Priority
  | val : ℚ → Priority
deriving DecidableEq

/-- Strict comparison of priorities (`inf` is greater than every finite
value). -/
def priorityLt : Priority → Priority → Bool
  | .inf, _ => false
  | .val _, .inf => true
  | .val a, .val b => decide (a < b)

/-- `a` may precede `b` in the descending sort: the `(priority, insertion)`
key of `b` is lexicographically ≤ the key of `a`. -/
def entryKeyLe {α : Type} (a b : Priority × Nat × α) : Bool :=
  priorityLt b.1 a.1 || (decide (b.1 = a.1) && decide (b.2.1 ≤ a.2.1))

/-- Stable insertion into a sorted list: the new element goes before the
first element it may precede, hence after all elements with an equal key
that were already present. -/
def stableInsertDesc {α : Type} (le : α → α → Bool) (a : α) : List α → List α
  | [] => [a]
  | b :: l => if le a b then a :: b :: l else b :: stableInsertDesc le a l

/-- Stable sort (insertion sort), processing the earliest element last so
that elements with equal keys keep their original relative order — the
documented behaviour of Python's `sorted` with `reverse=True`. -/
def stableSortDesc {α : Type} (le : α → α → Bool) : List α → List α
  | [] => []
  | a :: l => stableInsertDesc le a (stableSortDesc le l)

/-- The `sorted_queue` computed after an insertion. -/
def sorted_queue_of {α : Type} (l : List (Priority × Nat × α)) :
    List (Priority × Nat × α) :=
  stableSortDesc entryKeyLe l

/-- The replay state of `PrioritizedAgentNew`: the bounded deque of
`(error, insertion, experience)` tuples, the insertion counter and the last
sorted queue. -/
structure PBuf (α : Type) where
  experience_replay : List (Priority × Nat × α)
  insertion : Nat
  sorted_queue : List (Priority × Nat × α)

/-- The initial state: empty deque, `insertion = 0`, no sorted queue yet. -/
def PBuf.empty (α : Type) : PBuf α := ⟨[], 0, []⟩

/-- `PrioritizedAgentNew.insert_experience`: append
`(float('inf'), self.insertion, experience)` to the deque and re-sort.  The
source never increments `self.insertion`, which is reproduced here. -/
def insert_experience_p {α : Type} (cap : Nat) (s : PBuf α) (e : α) : PBuf α :=
  let er := dequeAppend cap s.experience_replay (Priority.inf, s.insertion, e)
  { experience_replay := er,
    insertion := s.insertion,
    sorted_queue := sorted_queue_of er }

/-- **C6.**  After inserting experience `0` and then experience `1` into an
empty prioritized buffer, both entries carry priority `+∞` and insertion
number `0` (the counter is never incremented), so the stable sort leaves the
*older* entry at rank 1: the entry just inserted does not occupy the rank-1
position, contradicting the claim. -/
theorem c6_newest_not_rank_one :
    (insert_experience_p 100 (insert_experience_p 100 (PBuf.empty ℚ) 0) 1).sorted_queue
      = [(Priority.inf, 0, (0 : ℚ)), (Priority.inf, 0, (1 : ℚ))]
    ∧ ((insert_experience_p 100 (insert_experience_p 100 (PBuf.empty ℚ) 0) 1).sorted_queue).head?
      ≠ some (Priority.inf, 0, (1 : ℚ)) := by
  refine ⟨by decide, by decide⟩

/-! ## Prioritized learning step (`PrioritizedAgentNew._learn_from_replay`)

The loop body reads `reward = batch[i][1]` and `terminated = batch[i][3]`
from entries that are 3-tuples `(error, insertion, experience)`; Python tuple
indexing out of range raises `IndexError`, and the final
`self.experience_replay[exp_id][0] = errors[experience]` is an item
assignment on a tuple, which raises `TypeError`.  Tuple indexing is modelled
as a fallible operation. -/

/-- A value stored in one slot of an `(error, insertion, experience)` tuple. -/
inductive PyVal (α : Type) where
  | pfloat : Priority → PyVal α
  | pint : Nat → PyVal α
  | pexp : α → PyVal α
deriving DecidableEq

/-- Python runtime errors relevant to the learning step. -/
inductive PyErr where
  | indexError
  | typeError
deriving DecidableEq

/-- The `(error, insertion, experience)` tuple as the Python 3-tuple it is. -/
def entryTuple {α : Type} (e : Priority × Nat × α) : List (PyVal α) :=
  [.pfloat e.1, .pint e.2.1, .pexp e.2.2]

/-- Python tuple indexing: out-of-range raises `IndexError`. -/
def pyIndex {α : Type} (t : List (PyVal α)) (i : Nat) : Except PyErr (PyVal α) :=
  match t.get? i with
  | some v => .ok v
  | none => .error .indexError

/-- The `terminated = batch[i][3]` reads performed by the loop of
`_learn_from_replay` over a sampled batch of buffer entries. -/
def batch_terminated_reads {α : Type} (batch : List (Priority × Nat × α)) :
    Except PyErr (List (PyVal α)) :=
  batch.mapM (fun b => pyIndex (entryTuple b) 3)

/-- **C7.**  After a single insertion the sampled batch is the one stored
3-tuple, and the learning step's read of index 3 (`terminated = batch[i][3]`)
raises `IndexError`: the step fails before any stored priority is
overwritten with a squared TD-error. -/
theorem c7_learn_step_index_error :
    batch_terminated_reads
        (insert_experience_p 100 (PBuf.empty ℚ) 0).sorted_queue
      = Except.error PyErr.indexError := by
  rfl

end DQLTetris
